import Mathlib

/-!
Verification of the CACO (Carbon-Aware Compute Orchestrator) planning core.

Shallow embedding of the scheduling engine (`src/optimization/engine.py`),
the domain models (`src/domain/models.py`), the carbon fallback generator
(`src/data_sources/carbon_intensity_client.py`) and the coordination agent's
planning handler (`src/coordination_agent/agent.py`).

Modelling conventions:
* Python `datetime` values are modelled as `Int` — seconds since the epoch
  (all datetimes in the source are UTC-normalized).  `timedelta(minutes=30)`
  is `1800` seconds; `total_seconds() / 3600` is rational division by `3600`.
* Python `float` values are modelled as exact rationals (`Rat`).
* Python `dict` values are modelled as association lists with Python's
  insertion-order semantics: an update keeps the key's original position,
  a fresh key is appended.  `next(iter(d.values()))` is the value of the
  first entry; it raises `StopIteration` (modelled as `none`) on an empty
  dict.
* Fallible code returns `Option`/`Except`; `none`/`.error` marks a raised
  exception.
-/

set_option maxRecDepth 4000

namespace Caco

/-- Python's `round` on an exact value: round half to even (banker's
rounding), as used by `int(round(...))` in `JobSpec.duration_slots`. -/
def pyRound (q : Rat) : Int :=
  let n : Int := ⌊q⌋
  let r : Rat := q - (n : Rat)
  if r < 1/2 then n
  else if (1:Rat)/2 < r then n + 1
  else if n % 2 = 0 then n else n + 1

/-- Python's `round(x, d)`: round half to even at `d` decimal places. -/
def pyRoundTo (d : Nat) (q : Rat) : Rat :=
  (pyRound (q * (10 ^ d : Nat)) : Rat) / ((10 ^ d : Nat) : Rat)

/-- `SLOT_DURATION = timedelta(minutes=30)`, in seconds. -/
def SLOT_DURATION : Int := 1800

/-- `SLOT_HOURS = SLOT_DURATION.total_seconds() / 3600`. -/
def SLOT_HOURS : Rat := 1/2

/-- `src/domain/models.py` `JobSpec` (the opaque `metadata` dict, unused by
the engine, is not modelled). -/
structure JobSpec where
  job_id : String
  arrival_time : Int
  power_kw : Rat
  duration_hours : Rat
  deadline : Int
  max_deferral_hours : Rat
  priority : Int
  sla_penalty_per_hour : Rat
  workload_type : String
  cluster_id : String
deriving DecidableEq, Repr

/-- `JobSpec.duration_slots`: `max(1, int(round(self.duration_hours * 2)))`. -/
def JobSpec.duration_slots (j : JobSpec) : Nat :=
  (max 1 (pyRound (j.duration_hours * 2))).toNat

/-- `JobSpec.is_flexible`: `self.max_deferral_hours > 0`. -/
def JobSpec.is_flexible (j : JobSpec) : Bool :=
  decide (0 < j.max_deferral_hours)

/-- `src/domain/models.py` `CarbonPoint`. -/
structure CarbonPoint where
  timestamp : Int
  forecast_g_per_kwh : Rat
  index : String := "unknown"
deriving DecidableEq, Repr

/-- `src/domain/models.py` `PricePoint`. -/
structure PricePoint where
  timestamp : Int
  system_buy_price_gbp_per_mwh : Rat
  system_sell_price_gbp_per_mwh : Rat
deriving DecidableEq, Repr

/-- The metadata dict attached to a `ScheduledJob` by the engine:
`{"lateness_hours": ..., "cluster_id": ..., "priority": ...}`. -/
structure SJMetadata where
  lateness_hours : Rat
  cluster_id : String
  priority : Int
deriving DecidableEq, Repr

/-- `src/domain/models.py` `ScheduledJob`. -/
structure ScheduledJob where
  job_id : String
  start_time : Int
  end_time : Int
  power_kw : Rat
  expected_cost_gbp : Rat
  expected_carbon_kg : Rat
  is_flexible_offer : Bool := false
  metadata : SJMetadata
deriving DecidableEq, Repr

/-- The tags dict attached to a `FlexOffer` by the engine:
`{"job_id": ..., "scheduled_start": isoformat(...)}`; `isoformat` is an
injective rendering of the timestamp, modelled by the timestamp itself. -/
structure FOTags where
  job_id : String
  scheduled_start : Int
deriving DecidableEq, Repr

/-- `src/domain/models.py` `FlexOffer`. -/
structure FlexOffer where
  offer_id : String
  cluster_id : String
  power_kw : Rat
  duration_hours : Rat
  earliest_start : Int
  latest_end : Int
  min_activation_notice_minutes : Int
  price_gbp_per_mwh : Rat
  carbon_intensity_cap_g_per_kwh : Rat
  tags : FOTags
deriving DecidableEq, Repr

/-! ### Python dict semantics (association lists) -/

/-- `d[k] = v` on a Python dict: update in place if the key exists,
else append. -/
def dictSet (d : List (Int × Rat)) (k : Int) (v : Rat) : List (Int × Rat) :=
  if d.any (fun kv => kv.1 = k) then
    d.map (fun kv => if kv.1 = k then (k, v) else kv)
  else
    d ++ [(k, v)]

/-- Build a dict from a list of key/value pairs (a dict comprehension:
later pairs overwrite earlier ones, insertion order kept). -/
def dictOf (l : List (Int × Rat)) : List (Int × Rat) :=
  l.foldl (fun d kv => dictSet d kv.1 kv.2) []

/-- Dict lookup, `none` when the key is absent (Python `KeyError`). -/
def dictGet? (d : List (Int × Rat)) (k : Int) : Option Rat :=
  (d.find? (fun kv => kv.1 = k)).map (fun kv => kv.2)

/-- Dict lookup with default `0`; in the engine every lookup key is a
timeline timestamp, for which the lookup is total (proved below), so the
default is never taken. -/
def lookupD (d : List (Int × Rat)) (k : Int) : Rat :=
  (dictGet? d k).getD 0

/-- `next(iter(d.values()))`: the first inserted value; `none` models the
`StopIteration` raised on an empty dict. -/
def dictFirstVal? (d : List (Int × Rat)) : Option Rat :=
  d.head?.map (fun kv => kv.2)

/-! ### `sorted(set ∪ set)` on timestamps -/

/-- Insert into a strictly-ascending list, dropping duplicates. -/
def insertSortedDedup (x : Int) : List Int → List Int
  | [] => [x]
  | y :: ys =>
    if x < y then x :: y :: ys
    else if x = y then y :: ys
    else y :: insertSortedDedup x ys

/-- `sorted({...} | {...})`: the strictly-ascending list of the distinct
elements of `l`. -/
def sortedDedup (l : List Int) : List Int :=
  l.foldr insertSortedDedup []

/-! ### `_build_timeline` -/

/-- The forward-fill loop of `_build_timeline`: walk the sorted timestamps
carrying the last known price/carbon value. -/
def fillMaps (pm cm : List (Int × Rat)) (lp lc : Rat) :
    List Int → List (Int × Rat) × List (Int × Rat)
  | [] => ([], [])
  | ts :: rest =>
    let lp' := (dictGet? pm ts).getD lp
    let lc' := (dictGet? cm ts).getD lc
    let (fps, fcs) := fillMaps pm cm lp' lc' rest
    ((ts, lp') :: fps, (ts, lc') :: fcs)

/-- `_build_timeline(carbon_series, price_series)`.  Returns `none` when the
source raises: `next(iter(price_map.values()))` / `next(iter(carbon_map.values()))`
raise `StopIteration` when the corresponding series is empty while the
union of timestamps is not. -/
def build_timeline (carbon_series : List CarbonPoint) (price_series : List PricePoint) :
    Option (List Int × List (Int × Rat) × List (Int × Rat)) :=
  let timestamps := sortedDedup
    (carbon_series.map (fun pt => pt.timestamp) ++ price_series.map (fun pt => pt.timestamp))
  if timestamps.isEmpty then some ([], [], [])
  else
    let price_map := dictOf (price_series.map
      (fun pt => (pt.timestamp, pt.system_buy_price_gbp_per_mwh / 1000)))
    let carbon_map := dictOf (carbon_series.map
      (fun pt => (pt.timestamp, pt.forecast_g_per_kwh)))
    match dictFirstVal? price_map, dictFirstVal? carbon_map with
    | some lp0, some lc0 =>
      let filled := fillMaps price_map carbon_map lp0 lc0 timestamps
      some (timestamps, filled.1, filled.2)
    | _, _ => none

/-! ### Job ordering

`sorted(jobs, key=lambda job: (-job.priority, job.duration_hours, job.arrival_time))`.
Python's `sorted` is the (unique) stable sort for the total preorder induced
by the key; it is modelled by a stable insertion sort for that preorder. -/

/-- `(-a.priority, a.duration_hours, a.arrival_time) ≤ (-b.priority, ...)`
in lexicographic order. -/
def jobKeyLe (a b : JobSpec) : Bool :=
  if a.priority ≠ b.priority then decide (b.priority < a.priority)
  else if a.duration_hours ≠ b.duration_hours then decide (a.duration_hours < b.duration_hours)
  else decide (a.arrival_time ≤ b.arrival_time)

/-- Insert `a` into `l` before the first element `b` with `le a b`;
for a sorted `l` this is the stable insertion. -/
def orderedInsertB (le : JobSpec → JobSpec → Bool) (a : JobSpec) : List JobSpec → List JobSpec
  | [] => [a]
  | b :: l => if le a b then a :: b :: l else b :: orderedInsertB le a l

/-- Stable insertion sort: the result Python's stable `sorted` produces for
the total preorder `le`. -/
def insertionSortB (le : JobSpec → JobSpec → Bool) : List JobSpec → List JobSpec
  | [] => []
  | a :: l => orderedInsertB le a (insertionSortB le l)

/-! ### `_select_start_index` -/

/-- Slot end for a placement at index `idx`:
`timeline[idx + slot_count - 1] + SLOT_DURATION`. -/
def endAt (tl : List Int) (cnt idx : Nat) : Int :=
  tl.getD (idx + cnt - 1) 0 + SLOT_DURATION

/-- `lateness_hours = max(0.0, (slot_end - job.deadline).total_seconds() / 3600)`. -/
def latenessAt (job : JobSpec) (tl : List Int) (cnt idx : Nat) : Rat :=
  max 0 (((endAt tl cnt idx - job.deadline : Int) : Rat) / 3600)

/-- All `continue`/`break` guards of the candidate loop in
`_select_start_index`, for start index `idx`:
* the loop bound `idx + slot_count ≤ len(timeline)` (the source `break`s at
  the first index past it, which is equivalent since the bound is monotone);
* not before arrival: `not (timeline[idx] < job.arrival_time)`;
* deferral filter: `not (lateness > max_deferral_hours and max_deferral_hours > 0)`;
* power cap: `not any(power_usage[idx+o] + power_kw > max_power_kw)`. -/
def feasibleAt (job : JobSpec) (tl : List Int) (usage : List Rat) (max_power_kw : Rat)
    (cnt idx : Nat) : Bool :=
  decide (idx + cnt ≤ tl.length) &&
  !(decide (tl.getD idx 0 < job.arrival_time)) &&
  !(decide (job.max_deferral_hours < latenessAt job tl cnt idx) &&
    decide (0 < job.max_deferral_hours)) &&
  (List.range cnt).all
    (fun off => !(decide (max_power_kw < usage.getD (idx + off) 0 + job.power_kw)))

/-- The candidate score: per-slot price and weighted carbon cost plus the
SLA penalty term. -/
def scoreAt (job : JobSpec) (tl : List Int) (fp fc : List (Int × Rat))
    (carbon_penalty_weight sla_penalty_weight : Rat) (cnt idx : Nat) : Rat :=
  ((List.range cnt).map (fun off =>
    let ts := tl.getD (idx + off) 0
    let slot_energy := job.power_kw * SLOT_HOURS
    lookupD fp ts * slot_energy +
      carbon_penalty_weight * (lookupD fc ts * slot_energy / 1000))).sum +
  (sla_penalty_weight + job.sla_penalty_per_hour) * latenessAt job tl cnt idx

/-- `score < best_score` with `best_score` initially `math.inf` (`none`). -/
def ltBest (s : Rat) : Option Rat → Bool
  | none => true
  | some b => decide (s < b)

/-- The candidate loop of `_select_start_index`: scan start indices in
order, keeping the strictly best-scoring feasible index. -/
def bestCandidate (job : JobSpec) (tl : List Int) (fp fc : List (Int × Rat))
    (usage : List Rat) (max_power_kw carbon_penalty_weight sla_penalty_weight : Rat)
    (cnt : Nat) :
    List Nat → Option Nat × Option Rat × Rat → Option Nat × Option Rat × Rat
  | [], acc => acc
  | idx :: rest, (bi, bs, bl) =>
    if feasibleAt job tl usage max_power_kw cnt idx then
      if ltBest (scoreAt job tl fp fc carbon_penalty_weight sla_penalty_weight cnt idx) bs then
        bestCandidate job tl fp fc usage max_power_kw carbon_penalty_weight
          sla_penalty_weight cnt rest
          (some idx,
           some (scoreAt job tl fp fc carbon_penalty_weight sla_penalty_weight cnt idx),
           latenessAt job tl cnt idx)
      else
        bestCandidate job tl fp fc usage max_power_kw carbon_penalty_weight
          sla_penalty_weight cnt rest (bi, bs, bl)
    else
      bestCandidate job tl fp fc usage max_power_kw carbon_penalty_weight
        sla_penalty_weight cnt rest (bi, bs, bl)

/-- `_select_start_index(job, timeline, ...)`: the best start index (or
`none` when no index is feasible) and its lateness. -/
def select_start_index (job : JobSpec) (tl : List Int) (fp fc : List (Int × Rat))
    (usage : List Rat) (max_power_kw carbon_penalty_weight sla_penalty_weight : Rat) :
    Option Nat × Rat :=
  let r := bestCandidate job tl fp fc usage max_power_kw carbon_penalty_weight
    sla_penalty_weight job.duration_slots (List.range tl.length) (none, none, 0)
  (r.1, r.2.2)

/-! ### Placement loop of `optimize_schedule` -/

/-- `Σ slots price[t] × slot_energy` for the committed placement. -/
def priceCostAt (job : JobSpec) (tl : List Int) (fp : List (Int × Rat))
    (cnt idx : Nat) : Rat :=
  ((List.range cnt).map (fun off =>
    lookupD fp (tl.getD (idx + off) 0) * (job.power_kw * SLOT_HOURS))).sum

/-- `Σ slots carbon[t] × slot_energy / 1000` (g → kg) for the committed
placement. -/
def carbonCostAt (job : JobSpec) (tl : List Int) (fc : List (Int × Rat))
    (cnt idx : Nat) : Rat :=
  ((List.range cnt).map (fun off =>
    lookupD fc (tl.getD (idx + off) 0) * (job.power_kw * SLOT_HOURS) / 1000)).sum

/-- Positional worker for `addUsage`: `k` is the index of the list head. -/
def addUsageFrom (i cnt : Nat) (p : Rat) (k : Nat) : List Rat → List Rat
  | [] => []
  | v :: rest =>
    (if i ≤ k ∧ k < i + cnt then v + p else v) :: addUsageFrom i cnt p (k + 1) rest

/-- `power_usage[idx] += job.power_kw` for `idx ∈ [i, i + cnt)`. -/
def addUsage (usage : List Rat) (i cnt : Nat) (p : Rat) : List Rat :=
  addUsageFrom i cnt p 0 usage

/-- The `ScheduledJob` record the engine emits for a placement of `job` at
start index `idx` with lateness `lat`. -/
def mkScheduledJob (job : JobSpec) (tl : List Int) (fp fc : List (Int × Rat))
    (cnt idx : Nat) (lat : Rat) : ScheduledJob :=
  { job_id := job.job_id
    start_time := tl.getD idx 0
    end_time := endAt tl cnt idx
    power_kw := job.power_kw
    expected_cost_gbp := pyRoundTo 2 (priceCostAt job tl fp cnt idx)
    expected_carbon_kg := pyRoundTo 3 (carbonCostAt job tl fc cnt idx)
    is_flexible_offer := job.is_flexible
    metadata := ⟨lat, job.cluster_id, job.priority⟩ }

/-- One iteration of the per-job loop in `optimize_schedule`: select a start
index; on `None` drop the job, otherwise commit the placement (update the
power-usage array, append the `ScheduledJob`). -/
def placeJob (tl : List Int) (fp fc : List (Int × Rat))
    (max_power_kw carbon_penalty_weight sla_penalty_weight : Rat)
    (acc : List Rat × List ScheduledJob) (job : JobSpec) :
    List Rat × List ScheduledJob :=
  match (select_start_index job tl fp fc acc.1 max_power_kw
      carbon_penalty_weight sla_penalty_weight).1 with
  | none => acc
  | some idx =>
    (addUsage acc.1 idx job.duration_slots job.power_kw,
     acc.2 ++ [mkScheduledJob job tl fp fc job.duration_slots idx
       ((select_start_index job tl fp fc acc.1 max_power_kw
         carbon_penalty_weight sla_penalty_weight).2)])

/-! ### `_flex_offers_from_schedule` -/

/-- `_average_value_between(values, start, end)`: mean of the dict values
with `start <= ts <= end`; the first dict value when the selection is
empty; `0.0` when the dict itself is empty. -/
def average_value_between (values : List (Int × Rat)) (start stop : Int) : Rat :=
  let selected := (values.filter (fun kv => start ≤ kv.1 ∧ kv.1 ≤ stop)).map (fun kv => kv.2)
  if selected.isEmpty then (dictFirstVal? values).getD 0
  else selected.sum / (selected.length : Rat)

/-- The `FlexOffer` emitted for a flexible scheduled job. -/
def mkFlexOffer (cl pl : List (Int × Rat)) (carbon_penalty_weight : Rat)
    (job : ScheduledJob) : FlexOffer :=
  let avg_price := average_value_between pl job.start_time job.end_time
  let max_carbon := average_value_between cl job.start_time job.end_time
  { offer_id := "flex-" ++ job.job_id
    cluster_id := job.metadata.cluster_id
    power_kw := job.power_kw
    duration_hours := ((job.end_time - job.start_time : Int) : Rat) / 3600
    earliest_start := job.start_time
    latest_end := job.end_time
    min_activation_notice_minutes := 60
    price_gbp_per_mwh := max 1 (avg_price * 1000 * (1 + carbon_penalty_weight / 10))
    carbon_intensity_cap_g_per_kwh := max_carbon
    tags := ⟨job.job_id, job.start_time⟩ }

/-- `_flex_offers_from_schedule`: one offer per scheduled job with
`is_flexible_offer`, in schedule order. -/
def flex_offers_from_schedule (scheduled_jobs : List ScheduledJob)
    (cl pl : List (Int × Rat)) (carbon_penalty_weight : Rat) : List FlexOffer :=
  (scheduled_jobs.filter (fun job => job.is_flexible_offer)).map
    (mkFlexOffer cl pl carbon_penalty_weight)

/-! ### `optimize_schedule` -/

/-- `optimize_schedule(jobs, carbon_series, price_series, *, ...)`.
`none` models an uncaught exception (`StopIteration` out of
`_build_timeline`). -/
def optimize_schedule (jobs : List JobSpec)
    (carbon_series : List CarbonPoint) (price_series : List PricePoint)
    (carbon_penalty_weight sla_penalty_weight max_power_kw : Rat) :
    Option (List ScheduledJob × List FlexOffer) :=
  if jobs.isEmpty then some ([], [])
  else
    match build_timeline carbon_series price_series with
    | none => none
    | some (tl, fp, fc) =>
      if tl.isEmpty then some ([], [])
      else
        let sorted_jobs := insertionSortB jobKeyLe jobs
        let usage0 := tl.map (fun _ => (0 : Rat))
        let result := sorted_jobs.foldl
          (placeJob tl fp fc max_power_kw carbon_penalty_weight sla_penalty_weight)
          (usage0, [])
        some (result.2, flex_offers_from_schedule result.2 fc fp carbon_penalty_weight)

/-! ### Carbon fallback series (`CarbonIntensityClient._fallback_series`) -/

/-- `start.replace(minute=0, second=0, microsecond=0)`: floor to the hour. -/
def hourFloor (t : Int) : Int := 3600 * Int.fdiv t 3600

/-- The synthetic forecast value `80 + 20 * ((slot % 16) / 16)`. -/
def fallbackForecast (slot : Nat) : Rat :=
  80 + 20 * (((slot % 16 : Nat) : Rat) / 16)

/-- `CarbonIntensityClient._fallback_series(start, periods)`. -/
def fallback_series (start : Int) (periods : Nat) : List CarbonPoint :=
  (List.range periods).map (fun slot =>
    { timestamp := hourFloor start + 1800 * (Int.ofNat slot)
      forecast_g_per_kwh := fallbackForecast slot
      index := if fallbackForecast slot < 100 then "low" else "moderate" })

/-! ### Coordination agent (`src/coordination_agent/agent.py`)

Only the slice the claims touch is modelled: the compute-profile fetch, the
planning handler and `execute`'s (absent) exception handling around it. -/

/-- The JSON payload the Compute agent answers `get_flexibility_profile`
with: a `status` field and a list of job specs. -/
structure ComputePayload where
  status : String
  jobs : List JobSpec
deriving DecidableEq, Repr

/-- The JSON response of a successful planning cycle. -/
structure PlanningResponse where
  status : String
  scheduled_jobs : List ScheduledJob
  flex_offers : List FlexOffer
deriving DecidableEq, Repr

/-- `_fetch_jobs`: `raise RuntimeError(f"Compute agent error: {jobs_payload}")`
when the inner payload's status is not `"ok"`; the payload is rendered into
the exception message (modelled by carrying its status). -/
def fetch_jobs (resp : ComputePayload) : Except String (List JobSpec) :=
  if resp.status ≠ "ok" then
    Except.error ("Compute agent error: status=" ++ resp.status)
  else
    Except.ok resp.jobs

/-- `_handle_run_planning`, given the already-fetched grid series and the
Compute agent's raw response: fetch jobs (may raise), run the engine (may
raise), return the `status:"success"` response. -/
def handle_run_planning (carbon_series : List CarbonPoint) (price_series : List PricePoint)
    (computeResp : ComputePayload)
    (carbon_penalty_weight sla_penalty_weight max_power_kw : Rat) :
    Except String PlanningResponse := do
  let jobs ← fetch_jobs computeResp
  match optimize_schedule jobs carbon_series price_series
      carbon_penalty_weight sla_penalty_weight max_power_kw with
  | none => Except.error "StopIteration"
  | some (scheduled, offers) => pure ⟨"success", scheduled, offers⟩

/-- What `CoordinationAgentExecutor.execute` emits for a `run_caco_planning`
command.  The source wraps only the JSON parse of the user input in
`try/except`; the `await self._handle_run_planning(payload)` call is not
guarded, so an exception raised there escapes `execute` instead of being
turned into a response. -/
inductive ExecuteOutcome
  | response (r : PlanningResponse)
  | uncaught (msg : String)
deriving DecidableEq, Repr

/-- `execute` on a `run_caco_planning` request (modulo transport). -/
def execute_run_planning (carbon_series : List CarbonPoint) (price_series : List PricePoint)
    (computeResp : ComputePayload)
    (carbon_penalty_weight sla_penalty_weight max_power_kw : Rat) : ExecuteOutcome :=
  match handle_run_planning carbon_series price_series computeResp
      carbon_penalty_weight sla_penalty_weight max_power_kw with
  | Except.ok r => ExecuteOutcome.response r
  | Except.error msg => ExecuteOutcome.uncaught msg

/-! ### RPC ordering in `_handle_run_planning`

The handler body is a straight-line `async` function; every `await`
suspends until its awaited call completes.  Its RPC activity is therefore
the following event sequence. -/

/-- Call/return events of the two downstream RPCs. -/
inductive RpcEvent
  | gridCall
  | gridReturn
  | computeCall
  | computeReturn
deriving DecidableEq, Repr

/-- The RPC event trace of `_handle_run_planning` as written:
`await self._fetch_grid_series(...)` completes before
`await self._fetch_jobs(...)` is entered (lines 90–91). -/
def handleRunPlanningTrace : List RpcEvent :=
  [RpcEvent.gridCall, RpcEvent.gridReturn, RpcEvent.computeCall, RpcEvent.computeReturn]

/-- Two RPCs are simultaneously in flight in a trace iff each one's call
event precedes the other's return event. -/
def bothInFlight (tr : List RpcEvent) : Prop :=
  tr.indexOf RpcEvent.computeCall < tr.indexOf RpcEvent.gridReturn ∧
  tr.indexOf RpcEvent.gridCall < tr.indexOf RpcEvent.computeReturn

/-! ### Spec-side observables -/

/-- The timeline `optimize_schedule` works over (empty when the engine
raises). -/
def timelineOf (carbon_series : List CarbonPoint) (price_series : List PricePoint) :
    List Int :=
  match build_timeline carbon_series price_series with
  | some (tl, _, _) => tl
  | none => []

/-- The spec's power-cap summand: total `power_kw` of the scheduled jobs
whose `[start_time, end_time)` interval covers the instant `t`. -/
def coveringPowerAt (sched : List ScheduledJob) (t : Int) : Rat :=
  ((sched.filter (fun s => decide (s.start_time ≤ t) && decide (t < s.end_time))).map
    (fun s => s.power_kw)).sum

/-- The timeline's consecutive timestamps are exactly 30 minutes apart. -/
def Spaced30 (tl : List Int) : Prop :=
  ∀ k : Nat, k + 1 < tl.length → tl.getD (k + 1) 0 = tl.getD k 0 + SLOT_DURATION

/-! ### Concrete inputs for the counterexamples, code-bug evaluations and
witnesses -/

/-- `power_kw=10, duration=0.5h (1 slot), arrival=deadline=t0, max_deferral=0`. -/
def jobC2 : JobSpec := ⟨"j1", 0, 10, 1/2, 0, 0, 1, 0, "batch", "default"⟩

/-- The placement the engine emits for `jobC2` in the C2 scenario:
it ends 30 minutes past the job's deadline. -/
def schedC2 : ScheduledJob := ⟨"j1", 0, 1800, 10, 1, 1/2, false, ⟨1/2, "default", 1⟩⟩

/-- A job for the C3 scenario (any job past the empty-list early return). -/
def jobC3 : JobSpec := ⟨"j3", 0, 10, 1/2, 3600, 0, 1, 0, "batch", "default"⟩

/-- Two 600-seconds-apart timeline points (an irregular timeline): carbon
side of the C1 scenario. -/
def carbonC1 : List CarbonPoint := [⟨0, 100, "low"⟩, ⟨600, 100, "low"⟩]

/-- Price side of the C1 scenario. -/
def priceC1 : List PricePoint := [⟨0, 100, 50⟩, ⟨600, 100, 50⟩]

/-- Two identical 1-slot jobs of 60 kW against a 100 kW cap. -/
def jobsC1 : List JobSpec :=
  [⟨"a", 0, 60, 1/2, 7200, 0, 1, 0, "batch", "default"⟩,
   ⟨"b", 0, 60, 1/2, 7200, 0, 1, 0, "batch", "default"⟩]

/-- The schedule the engine emits in the C1 scenario: the two placements
`[0, 1800)` and `[600, 2400)` overlap at the timeline slot `600`. -/
def schedC1 : List ScheduledJob :=
  [⟨"a", 0, 1800, 60, 3, 3, false, ⟨0, "default", 1⟩⟩,
   ⟨"b", 600, 2400, 60, 3, 3, false, ⟨0, "default", 1⟩⟩]

/-- A 2-slot (1 h) job for the C7 scenario. -/
def jobC7 : JobSpec := ⟨"c7", 0, 10, 1, 7200, 0, 1, 0, "batch", "default"⟩

/-- Carbon side of the C7 scenario: timeline points 600 s apart. -/
def carbonC7 : List CarbonPoint := [⟨0, 100, "low"⟩, ⟨600, 100, "low"⟩]

/-- Price side of the C7 scenario. -/
def priceC7 : List PricePoint := [⟨0, 100, 50⟩]

/-- The placement the engine emits for `jobC7`: `end_time = 2400`, which is
`timeline[1] + 30min`, not `start_time + 2 × 30min = 3600`. -/
def schedC7 : ScheduledJob := ⟨"c7", 0, 2400, 10, 1, 1, false, ⟨0, "default", 1⟩⟩

/-- Regular (30-minute-spaced) carbon series for the witnesses. -/
def carbonW : List CarbonPoint := [⟨0, 100, "low"⟩, ⟨1800, 100, "low"⟩]

/-- Price series for the witnesses. -/
def priceW : List PricePoint := [⟨0, 100, 50⟩]

/-- One flexible 60 kW job against a 100 kW cap (witness scenario). -/
def jobsW : List JobSpec :=
  [⟨"wa", 0, 60, 1/2, 7200, 2, 1, 0, "batch", "default"⟩]

/-- The schedule the engine emits in the witness scenario. -/
def schedW : List ScheduledJob :=
  [⟨"wa", 0, 1800, 60, 3, 3, true, ⟨0, "default", 1⟩⟩]

/-- The flex offers the engine emits in the witness scenario. -/
def offersW : List FlexOffer :=
  [⟨"flex-wa", "default", 60, 1/2, 0, 1800, 60, 100, 100, ⟨"wa", 0⟩⟩]

/-- Carbon series for the C8 witness: the timestamp `1800` is present only
on the carbon side. -/
def carbonW8 : List CarbonPoint := [⟨0, 100, "low"⟩, ⟨1800, 50, "low"⟩]

/-- Price series for the C8 witness. -/
def priceW8 : List PricePoint := [⟨0, 200, 100⟩]

/-! ### Proof-side helper definitions -/

/-- A placement the engine can emit for job `j`: some feasible start index
`i` (bounds, arrival and deferral checks of `_select_start_index`) whose
committed `ScheduledJob` record is `sj`. -/
def PlacedJob (tl : List Int) (fp fc : List (Int × Rat)) (j : JobSpec)
    (sj : ScheduledJob) : Prop :=
  ∃ i : Nat, i + j.duration_slots ≤ tl.length ∧
    j.arrival_time ≤ tl.getD i 0 ∧
    (0 < j.max_deferral_hours →
      latenessAt j tl j.duration_slots i ≤ j.max_deferral_hours) ∧
    sj = mkScheduledJob j tl fp fc j.duration_slots i (latenessAt j tl j.duration_slots i)

/-- One side of the forward-fill loop (`fillMaps` is this map on each of
its two sides; proof-side helper). -/
def fillOne (kv : List (Int × Rat)) (lp : Rat) : List Int → List (Int × Rat)
  | [] => []
  | ts :: rest =>
    let lp' := (dictGet? kv ts).getD lp
    (ts, lp') :: fillOne kv lp' rest

/-- The value carried by the forward fill after scanning the timestamps
`l` starting from `lp` (proof-side helper). -/
def ffAcc (kv : List (Int × Rat)) (lp : Rat) (l : List Int) : Rat :=
  l.foldl (fun acc t => (dictGet? kv t).getD acc) lp

/-- The timestamps of `l` that hit a key of `kv` (proof-side helper). -/
def hitKeys (kv : List (Int × Rat)) (l : List Int) : List Int :=
  l.filter (fun k => (dictGet? kv k).isSome)

/-! ## Theorems -/

/-- Every slot of the synthetic carbon fallback has forecast at most
`98.75 = 395/4` g/kWh. -/
theorem fallbackForecast_le (slot : Nat) : fallbackForecast slot ≤ 395/4 := by
  have hm : (slot % 16) ≤ 15 := Nat.le_of_lt_succ (Nat.mod_lt _ (by norm_num))
  have hmq : ((slot % 16 : Nat) : Rat) ≤ 15 := by exact_mod_cast hm
  unfold fallbackForecast
  linarith

/-- C10: in the carbon fallback series generated on upstream failure, every
point's forecast `80 + 20 × ((slot mod 16)/16)` is at most `98.75`, hence
strictly below `100`, and every point's index label is `"low"` — the
`"moderate"` label is never produced. -/
theorem fallback_index_always_low (start : Int) (periods : Nat) (pt : CarbonPoint)
    (hpt : pt ∈ fallback_series start periods) :
    pt.forecast_g_per_kwh ≤ 395/4 ∧ pt.forecast_g_per_kwh < 100 ∧ pt.index = "low" := by
  simp only [fallback_series, List.mem_map, List.mem_range] at hpt
  obtain ⟨slot, hslot, rfl⟩ := hpt
  have hle : fallbackForecast slot ≤ 395/4 := fallbackForecast_le slot
  have hlt : fallbackForecast slot < 100 := lt_of_le_of_lt hle (by norm_num)
  exact ⟨hle, hlt, by simp [hlt]⟩

/-- Witness for C10 at the concrete point `(0, 80, "low")` of
`fallback_series 0 1`. -/
theorem fallback_index_always_low_witness :
    (⟨0, 80, "low"⟩ : CarbonPoint) ∈ fallback_series 0 1 ∧
    ((⟨0, 80, "low"⟩ : CarbonPoint).forecast_g_per_kwh ≤ 395/4 ∧
     (⟨0, 80, "low"⟩ : CarbonPoint).forecast_g_per_kwh < 100 ∧
     (⟨0, 80, "low"⟩ : CarbonPoint).index = "low") := by
  have hm : (⟨0, 80, "low"⟩ : CarbonPoint) ∈ fallback_series 0 1 := by
    with_unfolding_all decide
  exact ⟨hm, fallback_index_always_low 0 1 _ hm⟩

/-- C5: the engine is a pure function of
`(jobs, carbon_series, price_series, carbon_penalty_weight,
sla_penalty_weight, max_power_kw)`: equal inputs give identical schedules
and identical flex-offer lists.  The embedding is a total function because
the source reads no clock, randomness or global state. -/
theorem optimize_schedule_deterministic
    (j₁ j₂ : List JobSpec) (c₁ c₂ : List CarbonPoint) (p₁ p₂ : List PricePoint)
    (cw₁ cw₂ sw₁ sw₂ m₁ m₂ : Rat)
    (hj : j₁ = j₂) (hc : c₁ = c₂) (hp : p₁ = p₂)
    (hcw : cw₁ = cw₂) (hsw : sw₁ = sw₂) (hm : m₁ = m₂) :
    optimize_schedule j₁ c₁ p₁ cw₁ sw₁ m₁ = optimize_schedule j₂ c₂ p₂ cw₂ sw₂ m₂ := by
  subst hj; subst hc; subst hp; subst hcw; subst hsw; subst hm; rfl

/-- Witness for C5 at one concrete input. -/
theorem optimize_schedule_deterministic_witness :
    optimize_schedule [jobC2] [⟨0, 100, "low"⟩] [⟨0, 200, 150⟩] 1 1 100 =
      optimize_schedule [jobC2] [⟨0, 100, "low"⟩] [⟨0, 200, 150⟩] 1 1 100 :=
  optimize_schedule_deterministic _ _ _ _ _ _ _ _ _ _ _ _ rfl rfl rfl rfl rfl rfl

/-- C3 (code-bug evaluation): with a non-empty jobs list, an empty carbon
series together with a non-empty price series (or the reverse) makes
`_build_timeline` raise `StopIteration` at `next(iter(...))`, so
`optimize_schedule` does not return normally (`none` marks the raise); the
empty-jobs and both-series-empty cases do return empty results. -/
theorem engine_raises_on_single_empty_series :
    optimize_schedule [jobC3] [] [⟨0, 200, 150⟩] 1 1 100 = none ∧
    optimize_schedule [jobC3] [⟨0, 100, "low"⟩] [] 1 1 100 = none ∧
    optimize_schedule [] [] [⟨0, 200, 150⟩] 1 1 100 = some ([], []) ∧
    optimize_schedule [jobC3] [] [] 1 1 100 = some ([], []) := by
  refine ⟨?_, ?_, ?_, ?_⟩ <;> with_unfolding_all decide

/-- C4 (code-bug evaluation): when the Compute agent's
`get_flexibility_profile` payload has `status != "ok"`, `_fetch_jobs`
raises `RuntimeError` and `execute` — whose only `try/except` guards the
JSON parse of the user input — lets it escape instead of emitting a
`status:"error"` response. -/
theorem coordination_uncaught_on_compute_error :
    fetch_jobs ⟨"degraded", []⟩ =
      Except.error "Compute agent error: status=degraded" ∧
    execute_run_planning [] [] ⟨"degraded", []⟩ 1 1 100 =
      ExecuteOutcome.uncaught "Compute agent error: status=degraded" := by
  constructor <;> rfl

/-- C9 (code-bug evaluation): in `_handle_run_planning` the grid RPC is
awaited to completion before the compute RPC is issued — the two RPCs are
never simultaneously in flight, contradicting the required concurrent
fan-out. -/
theorem rpc_fanout_sequential :
    handleRunPlanningTrace.indexOf RpcEvent.gridReturn <
      handleRunPlanningTrace.indexOf RpcEvent.computeCall ∧
    ¬ bothInFlight handleRunPlanningTrace := by
  refine ⟨by decide, ?_⟩
  unfold bothInFlight
  decide

/-- C2 counterexample: a job with `max_deferral_hours = 0` is scheduled with
`end_time = 1800`, 30 minutes past its deadline `0` — the lateness filter
`lateness > max_deferral and max_deferral > 0` never fires for
zero-deferral jobs. -/
theorem zero_deferral_scheduled_late :
    jobC2.max_deferral_hours = 0 ∧
    optimize_schedule [jobC2] [⟨0, 100, "low"⟩] [⟨0, 200, 150⟩] 1 1 100 =
      some ([schedC2], []) ∧
    jobC2.deadline < schedC2.end_time := by
  refine ⟨rfl, ?_, by decide⟩
  with_unfolding_all decide

/-- C7 counterexample: on a timeline whose two timestamps are 600 s apart,
the 2-slot job `jobC7` is scheduled with
`end_time = timeline[1] + 30min = 2400` while
`start_time + duration_slots × 30min = 3600`. -/
theorem end_time_equation_counterexample :
    jobC7.duration_slots = 2 ∧
    optimize_schedule [jobC7] carbonC7 priceC7 0 0 100 = some ([schedC7], []) ∧
    ¬ schedC7.end_time =
        schedC7.start_time + (jobC7.duration_slots : Int) * SLOT_DURATION := by
  refine ⟨by with_unfolding_all decide, ?_, by with_unfolding_all decide⟩
  with_unfolding_all decide

/-- C1 counterexample: (i) on a timeline whose timestamps are 600 s apart,
two 60 kW placements `[0, 1800)` and `[600, 2400)` both cover the timeline
slot `600`, so the interval-covering power sum there is `120 > 100`, although
each job's `power_kw` alone is within the cap; (ii) with an empty jobs list
and `max_power_kw = -1` the per-job hypothesis holds vacuously, yet the
covering sum `0` at slot `0` exceeds the cap. -/
theorem power_cap_interval_counterexample :
    jobsC1.all (fun j => decide (j.power_kw ≤ 100)) = true ∧
    (600 : Int) ∈ timelineOf carbonC1 priceC1 ∧
    optimize_schedule jobsC1 carbonC1 priceC1 0 0 100 = some (schedC1, []) ∧
    ¬ coveringPowerAt schedC1 600 ≤ 100 ∧
    ((0 : Int) ∈ timelineOf carbonC1 priceC1 ∧
     optimize_schedule [] carbonC1 priceC1 0 0 (-1) = some ([], []) ∧
     ¬ coveringPowerAt [] 0 ≤ -1) := by
  refine ⟨by with_unfolding_all decide, by with_unfolding_all decide, ?_,
    by with_unfolding_all decide, by with_unfolding_all decide,
    by with_unfolding_all decide, by with_unfolding_all decide⟩
  with_unfolding_all decide

/-! ### Properties of `_select_start_index` -/

/-- Unpacking the candidate guards of `feasibleAt`. -/
theorem feasibleAt_spec {job : JobSpec} {tl : List Int} {usage : List Rat}
    {mp : Rat} {cnt idx : Nat} (h : feasibleAt job tl usage mp cnt idx = true) :
    idx + cnt ≤ tl.length ∧ job.arrival_time ≤ tl.getD idx 0 ∧
    (0 < job.max_deferral_hours →
      latenessAt job tl cnt idx ≤ job.max_deferral_hours) ∧
    (∀ off, off < cnt → usage.getD (idx + off) 0 + job.power_kw ≤ mp) := by
  simp only [feasibleAt, Bool.and_eq_true, decide_eq_true_eq, Bool.not_eq_true',
    List.all_eq_true, List.mem_range, Bool.and_eq_false_iff, decide_eq_false_iff_not,
    not_lt] at h
  obtain ⟨⟨⟨h1, h2⟩, h3⟩, h4⟩ := h
  refine ⟨h1, h2, ?_, fun off hoff => h4 off hoff⟩
  intro hpos
  rcases h3 with h3 | h3
  · exact h3
  · exact absurd hpos (not_lt.mpr h3)

/-- The candidate loop only ever reports a feasible index together with its
lateness. -/
theorem bestCandidate_inv (job : JobSpec) (tl : List Int) (fp fc : List (Int × Rat))
    (usage : List Rat) (mp cw sw : Rat) (cnt : Nat) (l : List Nat) :
    ∀ (bi : Option Nat) (bs : Option Rat) (bl : Rat),
      (∀ i0, bi = some i0 → feasibleAt job tl usage mp cnt i0 = true ∧
        bl = latenessAt job tl cnt i0) →
      ∀ i, (bestCandidate job tl fp fc usage mp cw sw cnt l (bi, bs, bl)).1 = some i →
        feasibleAt job tl usage mp cnt i = true ∧
        (bestCandidate job tl fp fc usage mp cw sw cnt l (bi, bs, bl)).2.2 =
          latenessAt job tl cnt i := by
  induction l with
  | nil =>
    intro bi bs bl hacc i h
    simp only [bestCandidate] at h ⊢
    exact ⟨(hacc i h).1, ((hacc i h).2).symm ▸ rfl⟩
  | cons idx rest ih =>
    intro bi bs bl hacc i h
    by_cases hf : feasibleAt job tl usage mp cnt idx = true
    · by_cases hlb : ltBest (scoreAt job tl fp fc cw sw cnt idx) bs = true
      · simp only [bestCandidate, hf, hlb, if_true] at h ⊢
        refine ih (some idx) _ (latenessAt job tl cnt idx) ?_ i h
        intro i0 hi0
        cases hi0
        exact ⟨hf, rfl⟩
      · simp only [bestCandidate, hf, hlb, if_true, if_false] at h ⊢
        exact ih bi bs bl hacc i h
    · simp only [bestCandidate, hf, if_false] at h ⊢
      exact ih bi bs bl hacc i h

/-- When `_select_start_index` returns an index, that index passed every
guard and the returned lateness is the index's lateness. -/
theorem select_start_index_some {job : JobSpec} {tl : List Int}
    {fp fc : List (Int × Rat)} {usage : List Rat} {mp cw sw : Rat} {i : Nat}
    (h : (select_start_index job tl fp fc usage mp cw sw).1 = some i) :
    feasibleAt job tl usage mp job.duration_slots i = true ∧
    (select_start_index job tl fp fc usage mp cw sw).2 =
      latenessAt job tl job.duration_slots i := by
  have hinv := bestCandidate_inv job tl fp fc usage mp cw sw job.duration_slots
    (List.range tl.length) none none 0 (fun i0 hi0 => by cases hi0) i
  have h' : (bestCandidate job tl fp fc usage mp cw sw job.duration_slots
      (List.range tl.length) (none, none, 0)).1 = some i := by
    simpa [select_start_index] using h
  simpa [select_start_index] using hinv h'

/-! ### Sorting and placement-loop provenance -/

/-- Stable insertion is a permutation. -/
theorem orderedInsertB_perm (le : JobSpec → JobSpec → Bool) (a : JobSpec)
    (l : List JobSpec) : (orderedInsertB le a l).Perm (a :: l) := by
  induction l with
  | nil => simp [orderedInsertB]
  | cons b t ih =>
    by_cases hle : le a b = true
    · simp [orderedInsertB, hle]
    · simp only [orderedInsertB, hle, if_false, Bool.false_eq_true]
      exact (List.Perm.cons b ih).trans (List.Perm.swap a b t)

/-- The stable sort is a permutation of its input. -/
theorem insertionSortB_perm (le : JobSpec → JobSpec → Bool) (l : List JobSpec) :
    (insertionSortB le l).Perm l := by
  induction l with
  | nil => simp [insertionSortB]
  | cons a t ih =>
    exact (orderedInsertB_perm le a (insertionSortB le t)).trans (ih.cons a)

/-- Every scheduled job produced by the placement loop is either inherited
from the accumulator or a guarded placement of one of the processed jobs. -/
theorem foldl_placeJob_mem (tl : List Int) (fp fc : List (Int × Rat)) (mp cw sw : Rat)
    (L : List JobSpec) :
    ∀ (acc : List Rat × List ScheduledJob) (sj : ScheduledJob),
      sj ∈ (L.foldl (placeJob tl fp fc mp cw sw) acc).2 →
      sj ∈ acc.2 ∨ ∃ j ∈ L, PlacedJob tl fp fc j sj := by
  induction L with
  | nil =>
    intro acc sj h
    exact Or.inl (by simpa using h)
  | cons j0 rest ih =>
    intro acc sj h
    rw [List.foldl_cons] at h
    rcases ih (placeJob tl fp fc mp cw sw acc j0) sj h with hmem | ⟨j, hj, hpl⟩
    · cases hsel : (select_start_index j0 tl fp fc acc.1 mp cw sw).1 with
      | none =>
        left
        simpa [placeJob, hsel] using hmem
      | some i =>
        have hps := select_start_index_some hsel
        have hfs := feasibleAt_spec hps.1
        have hm2 : sj ∈ acc.2 ++ [mkScheduledJob j0 tl fp fc j0.duration_slots i
            ((select_start_index j0 tl fp fc acc.1 mp cw sw).2)] := by
          simpa [placeJob, hsel] using hmem
        rcases List.mem_append.mp hm2 with h1 | h2
        · exact Or.inl h1
        · refine Or.inr ⟨j0, List.mem_cons_self j0 rest, i, hfs.1, hfs.2.1, hfs.2.2.1, ?_⟩
          rw [List.mem_singleton.mp h2, hps.2]
    · exact Or.inr ⟨j, List.mem_cons_of_mem j0 hj, hpl⟩

/-- Case analysis on a normal return of `optimize_schedule`: either the
trivial empty result (no jobs, or an empty timeline), or the placement-loop
result over the sorted jobs together with the offers derived from it. -/
theorem optimize_schedule_eq {jobs : List JobSpec} {c : List CarbonPoint}
    {p : List PricePoint} {cw sw mp : Rat} {sched : List ScheduledJob}
    {offers : List FlexOffer}
    (h : optimize_schedule jobs c p cw sw mp = some (sched, offers)) :
    (sched = [] ∧ offers = []) ∨
    ∃ tl fp fc, build_timeline c p = some (tl, fp, fc) ∧ tl = timelineOf c p ∧
      sched = ((insertionSortB jobKeyLe jobs).foldl (placeJob tl fp fc mp cw sw)
        (tl.map (fun _ => (0 : Rat)), [])).2 ∧
      offers = flex_offers_from_schedule sched fc fp cw := by
  by_cases hj : jobs.isEmpty = true
  · left
    rw [optimize_schedule, if_pos hj] at h
    exact ⟨(Prod.mk.injEq _ _ _ _ ▸ Option.some.inj h).1.symm,
      (Prod.mk.injEq _ _ _ _ ▸ Option.some.inj h).2.symm⟩
  · rw [optimize_schedule, if_neg hj] at h
    cases hbt : build_timeline c p with
    | none => rw [hbt] at h; cases h
    | some trip =>
      obtain ⟨tl, fp, fc⟩ := trip
      rw [hbt] at h
      dsimp only at h
      by_cases htl : tl.isEmpty = true
      · left
        rw [if_pos htl] at h
        exact ⟨(Prod.mk.injEq _ _ _ _ ▸ Option.some.inj h).1.symm,
          (Prod.mk.injEq _ _ _ _ ▸ Option.some.inj h).2.symm⟩
      · right
        rw [if_neg htl] at h
        have hpair := Option.some.inj h
        injection hpair with h1 h2
        refine ⟨tl, fp, fc, rfl, by simp [timelineOf, hbt], h1.symm, ?_⟩
        rw [← h1]
        exact h2.symm

/-- Every emitted `ScheduledJob` is a guarded placement of one of the input
jobs on the constructed timeline. -/
theorem optimize_schedule_mem {jobs : List JobSpec} {c : List CarbonPoint}
    {p : List PricePoint} {cw sw mp : Rat} {sched : List ScheduledJob}
    {offers : List FlexOffer} {sj : ScheduledJob}
    (h : optimize_schedule jobs c p cw sw mp = some (sched, offers))
    (hsj : sj ∈ sched) :
    ∃ tl fp fc, build_timeline c p = some (tl, fp, fc) ∧ tl = timelineOf c p ∧
      ∃ j ∈ jobs, PlacedJob tl fp fc j sj := by
  rcases optimize_schedule_eq h with ⟨rfl, _⟩ | ⟨tl, fp, fc, hbt, htl, hs, _⟩
  · cases hsj
  · subst hs
    rcases foldl_placeJob_mem tl fp fc mp cw sw _ _ sj hsj with h0 | ⟨j, hj, hpl⟩
    · cases h0
    · exact ⟨tl, fp, fc, hbt, htl, j,
        (insertionSortB_perm jobKeyLe jobs).subset hj, hpl⟩

/-! ### C2 amended: deferral bound for flexible jobs -/

/-- Amended C2: for every job with `max_deferral_hours > 0`, every emitted
placement ends at most `max_deferral_hours` past the deadline; a job with
`max_deferral_hours = 0` is subject to no lateness filter at all. -/
theorem deferral_bound_when_positive (jobs : List JobSpec) (c : List CarbonPoint)
    (p : List PricePoint) (cw sw mp : Rat) (sched : List ScheduledJob)
    (offers : List FlexOffer)
    (h : optimize_schedule jobs c p cw sw mp = some (sched, offers)) :
    ∀ sj ∈ sched, ∃ j ∈ jobs, j.job_id = sj.job_id ∧
      (0 < j.max_deferral_hours →
        ((sj.end_time - j.deadline : Int) : Rat) ≤ j.max_deferral_hours * 3600) := by
  intro sj hsj
  obtain ⟨tl, fp, fc, _, _, j, hjmem, i, _, _, hdef, hsj_eq⟩ :=
    optimize_schedule_mem h hsj
  refine ⟨j, hjmem, by rw [hsj_eq]; rfl, ?_⟩
  intro hpos
  have hlat := hdef hpos
  unfold latenessAt at hlat
  have h1 : ((endAt tl j.duration_slots i - j.deadline : Int) : Rat) / 3600 ≤
      j.max_deferral_hours := le_trans (le_max_right _ _) hlat
  rw [div_le_iff₀ (by norm_num : (0:Rat) < 3600)] at h1
  rw [hsj_eq]
  simpa [mkScheduledJob] using h1

/-! ### C6: flex-offer derivation -/

/-- C6: the offer list pairs one `FlexOffer` with each scheduled job whose
`is_flexible_offer` flag is set (in order), with
`offer_id = "flex-" + job_id`; and a scheduled job's flag is set exactly
when its source job has `max_deferral_hours > 0`. -/
theorem flex_offer_derivation (jobs : List JobSpec) (c : List CarbonPoint)
    (p : List PricePoint) (cw sw mp : Rat) (sched : List ScheduledJob)
    (offers : List FlexOffer)
    (h : optimize_schedule jobs c p cw sw mp = some (sched, offers)) :
    List.Forall₂ (fun (o : FlexOffer) (s : ScheduledJob) =>
        o.offer_id = "flex-" ++ s.job_id)
      offers (sched.filter (fun s => s.is_flexible_offer)) ∧
    ∀ sj ∈ sched, ∃ j ∈ jobs, j.job_id = sj.job_id ∧
      (sj.is_flexible_offer = true ↔ 0 < j.max_deferral_hours) := by
  constructor
  · rcases optimize_schedule_eq h with ⟨rfl, rfl⟩ | ⟨tl, fp, fc, _, _, _, ho⟩
    · simp
    · subst ho
      unfold flex_offers_from_schedule
      have hall : ∀ (l : List ScheduledJob),
          List.Forall₂ (fun (o : FlexOffer) (s : ScheduledJob) =>
            o.offer_id = "flex-" ++ s.job_id) (l.map (mkFlexOffer fc fp cw)) l := by
        intro l
        induction l with
        | nil => constructor
        | cons a t iht => exact List.Forall₂.cons rfl iht
      exact hall _
  · intro sj hsj
    obtain ⟨tl, fp, fc, _, _, j, hjmem, i, _, _, _, hsj_eq⟩ :=
      optimize_schedule_mem h hsj
    refine ⟨j, hjmem, by rw [hsj_eq]; rfl, ?_⟩
    rw [hsj_eq]
    simp [mkScheduledJob, JobSpec.is_flexible]

/-! ### C7 amended: the end-time equation on 30-minute-spaced timelines -/

/-- On a 30-minute-spaced timeline, positions are affine in the index. -/
theorem spaced_getD {tl : List Int} (hsp : Spaced30 tl) :
    ∀ k, k < tl.length → tl.getD k 0 = tl.getD 0 0 + SLOT_DURATION * k := by
  intro k
  induction k with
  | zero => intro _; simp
  | succ n ihn =>
    intro hk
    rw [hsp n hk, ihn (by omega)]
    push_cast
    ring

/-- Every job needs at least one slot. -/
theorem duration_slots_pos (j : JobSpec) : 1 ≤ j.duration_slots := by
  unfold JobSpec.duration_slots
  have h1 : (1 : Int) ≤ max 1 (pyRound (j.duration_hours * 2)) := le_max_left _ _
  omega

/-- Amended C7: `end_time = timeline[start_index + duration_slots - 1] + 30min`
always; on a timeline whose consecutive timestamps are 30 minutes apart this
equals `start_time + duration_slots × 30min`. -/
theorem end_time_equation_spaced (jobs : List JobSpec) (c : List CarbonPoint)
    (p : List PricePoint) (cw sw mp : Rat) (sched : List ScheduledJob)
    (offers : List FlexOffer)
    (h : optimize_schedule jobs c p cw sw mp = some (sched, offers))
    (hsp : Spaced30 (timelineOf c p)) :
    ∀ sj ∈ sched, ∃ j ∈ jobs, j.job_id = sj.job_id ∧
      sj.end_time = sj.start_time + (j.duration_slots : Int) * SLOT_DURATION := by
  intro sj hsj
  obtain ⟨tl, fp, fc, _, htl, j, hjmem, i, hib, _, _, hsj_eq⟩ :=
    optimize_schedule_mem h hsj
  have hsp' : Spaced30 tl := htl ▸ hsp
  have hcnt := duration_slots_pos j
  refine ⟨j, hjmem, by rw [hsj_eq]; rfl, ?_⟩
  rw [hsj_eq]
  have hklt : i + j.duration_slots - 1 < tl.length := by omega
  have hilt : i < tl.length := by omega
  simp only [mkScheduledJob, endAt]
  rw [spaced_getD hsp' _ hklt, spaced_getD hsp' _ hilt]
  have hcast : ((i + j.duration_slots - 1 : Nat) : Int) =
      (i : Int) + (j.duration_slots : Int) - 1 := by omega
  rw [hcast]
  ring

/-! ### C1 amended: the power-cap invariant on 30-minute-spaced timelines -/

theorem addUsageFrom_length (i cnt : Nat) (p : Rat) :
    ∀ (l : List Rat) (k0 : Nat), (addUsageFrom i cnt p k0 l).length = l.length := by
  intro l
  induction l with
  | nil => intro k0; rfl
  | cons v rest ih => intro k0; simp [addUsageFrom, ih]

theorem addUsageFrom_getD (i cnt : Nat) (p : Rat) :
    ∀ (l : List Rat) (k0 k : Nat), k < l.length →
      (addUsageFrom i cnt p k0 l).getD k 0 =
        if i ≤ k0 + k ∧ k0 + k < i + cnt then l.getD k 0 + p else l.getD k 0 := by
  intro l
  induction l with
  | nil => intro k0 k hk; cases hk
  | cons v rest ih =>
    intro k0 k hk
    cases k with
    | zero => simp [addUsageFrom]
    | succ n =>
      have hn : n < rest.length := by simpa using hk
      have := ih (k0 + 1) n hn
      simpa [addUsageFrom, Nat.add_assoc, Nat.add_comm 1 n,
        Nat.add_left_comm] using this

theorem addUsage_length (usage : List Rat) (i cnt : Nat) (p : Rat) :
    (addUsage usage i cnt p).length = usage.length :=
  addUsageFrom_length i cnt p usage 0

theorem addUsage_getD (usage : List Rat) (i cnt : Nat) (p : Rat) (k : Nat)
    (hk : k < usage.length) :
    (addUsage usage i cnt p).getD k 0 =
      if i ≤ k ∧ k < i + cnt then usage.getD k 0 + p else usage.getD k 0 := by
  simpa using addUsageFrom_getD i cnt p usage 0 k hk

theorem coveringPowerAt_append (sched : List ScheduledJob) (sj : ScheduledJob) (t : Int) :
    coveringPowerAt (sched ++ [sj]) t = coveringPowerAt sched t +
      (if sj.start_time ≤ t ∧ t < sj.end_time then sj.power_kw else 0) := by
  unfold coveringPowerAt
  rw [List.filter_append, List.map_append, List.sum_append]
  by_cases hc : sj.start_time ≤ t ∧ t < sj.end_time
  · simp [hc]
  · have hff : (decide (sj.start_time ≤ t) && decide (t < sj.end_time)) = false := by
      by_cases h1 : sj.start_time ≤ t
      · have h3 : ¬ t < sj.end_time := fun h3 => hc ⟨h1, h3⟩
        simp [h3]
      · simp [h1]
    simp [List.filter, hff, hc]

theorem getD_map_zero (tl : List Int) (k : Nat) :
    (tl.map (fun _ => (0 : Rat))).getD k 0 = 0 := by
  induction tl generalizing k with
  | nil => rfl
  | cons a rest ih =>
    cases k with
    | zero => rfl
    | succ n => simpa [List.getD] using ih n

/-- On a 30-minute-spaced timeline, the interval `[start, end)` of a
placement at index `i` covers the timeline entry `k` exactly when `k` is one
of the placement's occupied indices. -/
theorem covered_index_iff {tl : List Int} (hsp : Spaced30 tl) {i cnt k : Nat}
    (hcnt : 1 ≤ cnt) (hik : i + cnt ≤ tl.length) (hk : k < tl.length) :
    (tl.getD i 0 ≤ tl.getD k 0 ∧ tl.getD k 0 < endAt tl cnt i) ↔
      (i ≤ k ∧ k < i + cnt) := by
  have hi : i < tl.length := by omega
  have hic : i + cnt - 1 < tl.length := by omega
  unfold endAt
  rw [spaced_getD hsp k hk, spaced_getD hsp i hi, spaced_getD hsp _ hic]
  have hcast : ((i + cnt - 1 : Nat) : Int) = (i : Int) + (cnt : Int) - 1 := by omega
  rw [hcast]
  simp only [SLOT_DURATION]
  omega

/-- Loop invariant of the placement loop: the power-usage array tracks, for
every timeline index, the total power of the placements covering it, and
never exceeds the cap. -/
theorem foldl_placeJob_inv (tl : List Int) (fp fc : List (Int × Rat)) (mp cw sw : Rat)
    (hsp : Spaced30 tl) (hmp : 0 ≤ mp) (L : List JobSpec) :
    ∀ (usage : List Rat) (sched : List ScheduledJob),
      usage.length = tl.length →
      (∀ k, k < tl.length → usage.getD k 0 = coveringPowerAt sched (tl.getD k 0) ∧
        usage.getD k 0 ≤ mp) →
      (L.foldl (placeJob tl fp fc mp cw sw) (usage, sched)).1.length = tl.length ∧
      ∀ k, k < tl.length →
        (L.foldl (placeJob tl fp fc mp cw sw) (usage, sched)).1.getD k 0 =
          coveringPowerAt ((L.foldl (placeJob tl fp fc mp cw sw) (usage, sched)).2)
            (tl.getD k 0) ∧
        (L.foldl (placeJob tl fp fc mp cw sw) (usage, sched)).1.getD k 0 ≤ mp := by
  induction L with
  | nil =>
    intro usage sched hlen hinv
    exact ⟨hlen, hinv⟩
  | cons j0 rest ih =>
    intro usage sched hlen hinv
    rw [List.foldl_cons]
    cases hsel : (select_start_index j0 tl fp fc usage mp cw sw).1 with
    | none =>
      have hid : placeJob tl fp fc mp cw sw (usage, sched) j0 = (usage, sched) := by
        simp [placeJob, hsel]
      rw [hid]
      exact ih usage sched hlen hinv
    | some i =>
      have hps := select_start_index_some hsel
      have hfs := feasibleAt_spec hps.1
      have hplace : placeJob tl fp fc mp cw sw (usage, sched) j0 =
          (addUsage usage i j0.duration_slots j0.power_kw,
           sched ++ [mkScheduledJob j0 tl fp fc j0.duration_slots i
             ((select_start_index j0 tl fp fc usage mp cw sw).2)]) := by
        simp [placeJob, hsel]
      rw [hplace]
      apply ih
      · rw [addUsage_length]; exact hlen
      · intro k hk
        have hku : k < usage.length := by rw [hlen]; exact hk
        rw [addUsage_getD usage i j0.duration_slots j0.power_kw k hku,
          coveringPowerAt_append]
        have hiff := covered_index_iff hsp (duration_slots_pos j0) hfs.1 hk
        by_cases hcov : i ≤ k ∧ k < i + j0.duration_slots
        · rw [if_pos hcov]
          have hcc : (mkScheduledJob j0 tl fp fc j0.duration_slots i
              ((select_start_index j0 tl fp fc usage mp cw sw).2)).start_time ≤
                tl.getD k 0 ∧
              tl.getD k 0 < (mkScheduledJob j0 tl fp fc j0.duration_slots i
              ((select_start_index j0 tl fp fc usage mp cw sw).2)).end_time :=
            hiff.mpr hcov
          rw [if_pos hcc]
          constructor
          · rw [(hinv k hk).1]
            rfl
          · have hp := hfs.2.2.2 (k - i) (by omega)
            rw [show i + (k - i) = k by omega] at hp
            exact hp
        · rw [if_neg hcov]
          have hcc : ¬ ((mkScheduledJob j0 tl fp fc j0.duration_slots i
              ((select_start_index j0 tl fp fc usage mp cw sw).2)).start_time ≤
                tl.getD k 0 ∧
              tl.getD k 0 < (mkScheduledJob j0 tl fp fc j0.duration_slots i
              ((select_start_index j0 tl fp fc usage mp cw sw).2)).end_time) :=
            fun hx => hcov (hiff.mp hx)
          rw [if_neg hcc, add_zero]
          exact hinv k hk

/-- Amended C1: on a 30-minute-spaced timeline and with a non-negative
power cap, the sum of `power_kw` over the scheduled jobs whose
`[start_time, end_time)` interval covers a timeline slot `t` never exceeds
`max_power_kw` (each job's own power being within the cap, per the claim's
hypothesis). -/
theorem power_cap_spaced (jobs : List JobSpec) (c : List CarbonPoint)
    (p : List PricePoint) (cw sw mp : Rat) (sched : List ScheduledJob)
    (offers : List FlexOffer) (t : Int)
    (h : optimize_schedule jobs c p cw sw mp = some (sched, offers))
    (hpow : ∀ j ∈ jobs, j.power_kw ≤ mp)
    (hmp : 0 ≤ mp) (hsp : Spaced30 (timelineOf c p))
    (ht : t ∈ timelineOf c p) :
    coveringPowerAt sched t ≤ mp := by
  rcases optimize_schedule_eq h with ⟨rfl, _⟩ | ⟨tl, fp, fc, hbt, htl, hs, _⟩
  · simpa [coveringPowerAt] using hmp
  · subst hs
    have hsp' : Spaced30 tl := htl ▸ hsp
    have ht' : t ∈ tl := htl ▸ ht
    obtain ⟨k, hk, hkt⟩ := List.mem_iff_getElem.mp ht'
    have hkd : tl.getD k 0 = t := by
      rw [List.getD_eq_getElem tl 0 hk]
      exact hkt
    have hinv := foldl_placeJob_inv tl fp fc mp cw sw hsp' hmp
      (insertionSortB jobKeyLe jobs) (tl.map (fun _ => (0 : Rat))) []
      (by simp)
      (by
        intro k2 hk2
        refine ⟨?_, ?_⟩
        · rw [getD_map_zero]
          rfl
        · rw [getD_map_zero]
          exact hmp)
    have hfin := (hinv.2 k hk)
    rw [hkd] at hfin
    rw [← hfin.1]
    exact hfin.2

/-! ### C8: forward-fill correctness — dict and sorted-union lemmas -/

theorem dictSet_of_not_mem {d : List (Int × Rat)} {k : Int} {v : Rat}
    (hk : k ∉ d.map (fun kv => kv.1)) : dictSet d k v = d ++ [(k, v)] := by
  unfold dictSet
  rw [if_neg]
  intro hany
  rcases List.any_eq_true.mp hany with ⟨kv, hkv, hdec⟩
  exact hk (List.mem_map.mpr ⟨kv, hkv, by simpa using hdec⟩)

theorem foldl_dictSet_nodup :
    ∀ (l acc : List (Int × Rat)), ((acc ++ l).map (fun kv => kv.1)).Nodup →
      l.foldl (fun d kv => dictSet d kv.1 kv.2) acc = acc ++ l := by
  intro l
  induction l with
  | nil => intro acc _; simp
  | cons kv rest ih =>
    intro acc hnd
    rw [List.foldl_cons]
    have hnotin : kv.1 ∉ acc.map (fun kv2 => kv2.1) := by
      intro hmem
      rw [List.map_append] at hnd
      have hdisj := (List.nodup_append.mp hnd).2.2
      exact hdisj hmem (by simp)
    rw [dictSet_of_not_mem hnotin]
    have heta : acc ++ [(kv.1, kv.2)] = acc ++ [kv] := rfl
    rw [heta, ih (acc ++ [kv]) (by simpa using hnd)]
    simp

/-- A dict built from pairs with distinct keys is those pairs, in order. -/
theorem dictOf_eq_self {l : List (Int × Rat)} (h : (l.map (fun kv => kv.1)).Nodup) :
    dictOf l = l := by
  unfold dictOf
  simpa using foldl_dictSet_nodup l [] (by simpa using h)

theorem dictGet?_isSome_iff {d : List (Int × Rat)} {k : Int} :
    (dictGet? d k).isSome = true ↔ k ∈ d.map (fun kv => kv.1) := by
  unfold dictGet?
  constructor
  · intro hs
    cases hf : List.find? (fun kv => decide (kv.1 = k)) d with
    | none => rw [hf] at hs; simp at hs
    | some kv =>
      have hm := List.mem_of_find?_eq_some hf
      have hk : kv.1 = k := by simpa using List.find?_some hf
      exact List.mem_map.mpr ⟨kv, hm, hk⟩
  · intro hmem
    rcases List.mem_map.mp hmem with ⟨kv, hkv, hk⟩
    cases hf : List.find? (fun kv2 => decide (kv2.1 = k)) d with
    | none =>
      have := List.find?_eq_none.mp hf kv hkv
      simp [hk] at this
    | some kv2 => simp [hf]

theorem dictGet?_some_mem {d : List (Int × Rat)} {k : Int} {v : Rat}
    (h : dictGet? d k = some v) : (k, v) ∈ d := by
  unfold dictGet? at h
  rcases Option.map_eq_some'.mp h with ⟨kv, hfind, hv⟩
  have hmem := List.mem_of_find?_eq_some hfind
  have hk : kv.1 = k := by simpa using List.find?_some hfind
  have : kv = (k, v) := by
    cases kv
    simp only at hk hv
    simp [hk, hv]
  exact this ▸ hmem

theorem mem_insertSortedDedup {x y : Int} :
    ∀ {l : List Int}, y ∈ insertSortedDedup x l ↔ y = x ∨ y ∈ l := by
  intro l
  induction l with
  | nil => simp [insertSortedDedup]
  | cons a t ih =>
    unfold insertSortedDedup
    by_cases h1 : x < a
    · simp only [if_pos h1, List.mem_cons]
    · by_cases h2 : x = a
      · subst h2
        rw [if_neg h1, if_pos rfl, List.mem_cons]
        tauto
      · simp only [if_neg h1, if_neg h2, List.mem_cons, ih]
        tauto

theorem pairwise_insertSortedDedup {x : Int} :
    ∀ {l : List Int}, l.Pairwise (· < ·) → (insertSortedDedup x l).Pairwise (· < ·) := by
  intro l
  induction l with
  | nil => intro _; simp [insertSortedDedup]
  | cons a t ih =>
    intro h
    rcases List.pairwise_cons.mp h with ⟨ha, ht⟩
    unfold insertSortedDedup
    by_cases h1 : x < a
    · rw [if_pos h1]
      refine List.pairwise_cons.mpr ⟨?_, h⟩
      intro b hb
      rcases List.mem_cons.mp hb with rfl | hbt
      · exact h1
      · exact lt_trans h1 (ha b hbt)
    · rw [if_neg h1]
      by_cases h2 : x = a
      · rw [if_pos h2]
        exact h
      · rw [if_neg h2]
        refine List.pairwise_cons.mpr ⟨?_, ih ht⟩
        intro b hb
        rcases mem_insertSortedDedup.mp hb with rfl | hbt
        · omega
        · exact ha b hbt

theorem sortedDedup_pairwise (l : List Int) : (sortedDedup l).Pairwise (· < ·) := by
  unfold sortedDedup
  induction l with
  | nil => simp
  | cons a t ih =>
    rw [List.foldr_cons]
    exact pairwise_insertSortedDedup ih

theorem mem_sortedDedup {x : Int} : ∀ {l : List Int}, x ∈ sortedDedup l ↔ x ∈ l := by
  intro l
  induction l with
  | nil => simp [sortedDedup]
  | cons a t ih =>
    unfold sortedDedup
    rw [List.foldr_cons, mem_insertSortedDedup]
    unfold sortedDedup at ih
    rw [ih, List.mem_cons]

/-! ### C8: forward-fill correctness — fill lemmas -/

theorem fillMaps_eq_fillOne (pm cm : List (Int × Rat)) :
    ∀ (l : List Int) (lp lc : Rat),
      fillMaps pm cm lp lc l = (fillOne pm lp l, fillOne cm lc l) := by
  intro l
  induction l with
  | nil => intro lp lc; rfl
  | cons ts rest ih =>
    intro lp lc
    simp [fillMaps, fillOne, ih]

theorem fillOne_keys (kv : List (Int × Rat)) :
    ∀ (l : List Int) (lp : Rat), (fillOne kv lp l).map (fun e => e.1) = l := by
  intro l
  induction l with
  | nil => intro lp; rfl
  | cons ts rest ih => intro lp; simp [fillOne, ih]

/-- Looking up a scanned timestamp in the filled map yields the
forward-fill accumulator over the timestamps up to it. -/
theorem dictGet?_fillOne (kv : List (Int × Rat)) :
    ∀ (l : List Int) (lp : Rat) (ts : Int), ts ∈ l → l.Pairwise (· < ·) →
      dictGet? (fillOne kv lp l) ts =
        some (ffAcc kv lp (l.filter (fun x => decide (x ≤ ts)))) := by
  intro l
  induction l with
  | nil => intro lp ts hts _; cases hts
  | cons t rest ih =>
    intro lp ts hts hpw
    rcases List.pairwise_cons.mp hpw with ⟨hall, hrest⟩
    rcases List.mem_cons.mp hts with rfl | hmem
    · have hfil : rest.filter (fun x => decide (x ≤ ts)) = [] := by
        rw [List.filter_eq_nil]
        intro a ha
        simpa using not_le.mpr (hall a ha)
      rw [List.filter_cons_of_pos (by simp), hfil]
      simp [fillOne, dictGet?, List.find?, ffAcc]
    · have hlt : t < ts := hall ts hmem
      have hne : (t = ts) = False := by simp [ne_of_lt hlt]
      rw [List.filter_cons_of_pos (by simp [le_of_lt hlt])]
      have hstep : ffAcc kv lp (t :: rest.filter (fun x => decide (x ≤ ts))) =
          ffAcc kv ((dictGet? kv t).getD lp) (rest.filter (fun x => decide (x ≤ ts))) := by
        simp [ffAcc]
      rw [hstep]
      have := ih ((dictGet? kv t).getD lp) ts hmem hrest
      rw [← this]
      simp [fillOne, dictGet?, List.find?, ne_of_lt hlt]

/-- A scan with no key hits carries the seed through. -/
theorem ffAcc_nohit (kv : List (Int × Rat)) :
    ∀ (m : List Int) (lp : Rat), hitKeys kv m = [] → ffAcc kv lp m = lp := by
  intro m
  induction m with
  | nil => intro lp _; rfl
  | cons t rest ih =>
    intro lp h
    unfold hitKeys at h
    rcases List.filter_eq_nil.mp h t (by simp) with hnone
    have ht : dictGet? kv t = none := by
      cases hx : dictGet? kv t with
      | none => rfl
      | some v => exact absurd (by simp [hx]) hnone
    have hrest : hitKeys kv rest = [] := by
      unfold hitKeys
      rw [List.filter_eq_nil]
      intro a ha
      exact List.filter_eq_nil.mp h a (by simp [ha])
    simp [ffAcc, ht]
    exact ih lp hrest

/-- A scan whose last key hit is `k` ends at `k`'s value. -/
theorem ffAcc_hit (kv : List (Int × Rat)) (m : List Int) :
    ∀ (lp : Rat) (k : Int), (hitKeys kv m).getLast? = some k →
      ffAcc kv lp m = (dictGet? kv k).getD 0 := by
  induction m using List.reverseRecOn with
  | nil => intro lp k h; cases h
  | append_singleton m x ih =>
    intro lp k h
    unfold hitKeys at h
    rw [List.filter_append] at h
    cases hx : dictGet? kv x with
    | some v =>
      have hxf : List.filter (fun k2 => (dictGet? kv k2).isSome) [x] = [x] := by
        simp [hx]
      rw [hxf, List.getLast?_concat] at h
      have hk : k = x := by cases h; rfl
      subst hk
      unfold ffAcc
      rw [List.foldl_append]
      simp [hx]
    | none =>
      have hxf : List.filter (fun k2 => (dictGet? kv k2).isSome) [x] = [] := by
        simp [hx]
      rw [hxf, List.append_nil] at h
      unfold ffAcc
      rw [List.foldl_append]
      have := ih lp k h
      unfold ffAcc at this
      simp [hx]
      exact this

/-- In a strictly ascending list the last element bounds every element. -/
theorem le_getLast?_of_pairwise :
    ∀ {l : List Int}, l.Pairwise (· < ·) → ∀ x ∈ l, ∀ k, l.getLast? = some k → x ≤ k := by
  intro l
  induction l with
  | nil => intro _ x hx; cases hx
  | cons a t ih =>
    intro hpw x hx k hk
    cases t with
    | nil =>
      have hxa : x = a := by simpa using hx
      have hka : k = a := by
        simp only [List.getLast?_singleton] at hk
        cases hk; rfl
      rw [hxa, hka]
    | cons b t2 =>
      rw [List.getLast?_cons_cons] at hk
      have hkmem : k ∈ b :: t2 := by
        rcases List.mem_getLast?_eq_getLast (Option.mem_def.mpr hk) with ⟨hne, hkeq⟩
        rw [hkeq]
        exact List.getLast_mem hne
      rcases List.mem_cons.mp hx with rfl | hxt
      · exact le_of_lt ((List.pairwise_cons.mp hpw).1 k hkmem)
      · exact ih (List.pairwise_cons.mp hpw).2 x hxt k hk

/-- Core forward-fill correctness for one side: for a scanned timestamp
that is not itself a key, the filled value is the value at the greatest key
preceding it, or the seed when no key precedes it. -/
theorem fillOne_forwardFill (kv : List (Int × Rat)) (l : List Int) (lp : Rat)
    (hl : l.Pairwise (· < ·)) (hsub : ∀ k ∈ kv.map (fun e => e.1), k ∈ l)
    (ts : Int) (hts : ts ∈ l) (hnot : ts ∉ kv.map (fun e => e.1)) :
    ((∃ e ∈ kv, e.1 < ts) →
      ∃ e ∈ kv, e.1 < ts ∧ (∀ e2 ∈ kv, e2.1 < ts → e2.1 ≤ e.1) ∧
        dictGet? (fillOne kv lp l) ts = some e.2) ∧
    ((¬ ∃ e ∈ kv, e.1 < ts) → dictGet? (fillOne kv lp l) ts = some lp) := by
  have hlk := dictGet?_fillOne kv l lp ts hts hl
  have hmpw : (l.filter (fun x => decide (x ≤ ts))).Pairwise (· < ·) :=
    List.Pairwise.sublist (List.filter_sublist _) hl
  have hhitpw : (hitKeys kv (l.filter (fun x => decide (x ≤ ts)))).Pairwise (· < ·) :=
    List.Pairwise.sublist (List.filter_sublist _) hmpw
  constructor
  · rintro ⟨e0, he0, hlt0⟩
    have hhit : ∀ e2 ∈ kv, e2.1 < ts →
        e2.1 ∈ hitKeys kv (l.filter (fun x => decide (x ≤ ts))) := by
      intro e2 he2 hlt2
      unfold hitKeys
      rw [List.mem_filter]
      refine ⟨?_, ?_⟩
      · rw [List.mem_filter]
        exact ⟨hsub e2.1 (List.mem_map_of_mem _ he2), by simp [le_of_lt hlt2]⟩
      · simpa using dictGet?_isSome_iff.mpr (List.mem_map_of_mem _ he2)
    rcases hK : hitKeys kv (l.filter (fun x => decide (x ≤ ts))) with _ | ⟨a, r2⟩
    · exact absurd (hK ▸ hhit e0 he0 hlt0) (List.not_mem_nil _)
    · have hlast : (hitKeys kv (l.filter (fun x => decide (x ≤ ts)))).getLast? =
          some ((a :: r2).getLast (by simp)) := by
        rw [hK]
        exact List.getLast?_eq_getLast_of_ne_nil (by simp)
      have hkmaxmem : (a :: r2).getLast (by simp) ∈
          hitKeys kv (l.filter (fun x => decide (x ≤ ts))) := by
        rw [hK]
        exact List.getLast_mem _
      have hkisSome : (dictGet? kv ((a :: r2).getLast (by simp))).isSome = true := by
        simpa using (List.mem_filter.mp hkmaxmem).2
      obtain ⟨v, hv⟩ := Option.isSome_iff_exists.mp hkisSome
      have hkm : (a :: r2).getLast (by simp) ∈ l.filter (fun x => decide (x ≤ ts)) :=
        (List.mem_filter.mp hkmaxmem).1
      have hkle : (a :: r2).getLast (by simp) ≤ ts := by
        simpa using (List.mem_filter.mp hkm).2
      have hkne : (a :: r2).getLast (by simp) ≠ ts := by
        intro he
        exact hnot (he ▸ dictGet?_isSome_iff.mp hkisSome)
      refine ⟨((a :: r2).getLast (by simp), v), dictGet?_some_mem hv,
        lt_of_le_of_ne hkle hkne, ?_, ?_⟩
      · intro e2 he2 hlt2
        exact le_getLast?_of_pairwise hhitpw e2.1 (hhit e2 he2 hlt2) _ hlast
      · rw [hlk, ffAcc_hit kv _ lp _ hlast, hv]
        rfl
  · intro hno
    have hK : hitKeys kv (l.filter (fun x => decide (x ≤ ts))) = [] := by
      rw [List.eq_nil_iff_forall_not_mem]
      intro x hx
      have hxm := (List.mem_filter.mp hx).1
      have hxs : (dictGet? kv x).isSome = true := by
        simpa using (List.mem_filter.mp hx).2
      rcases List.mem_map.mp (dictGet?_isSome_iff.mp hxs) with ⟨e, he, hek⟩
      have hxts : x ≤ ts := by
        simpa using (List.mem_filter.mp hxm).2
      have hxne : x ≠ ts := fun hxe => hnot (hxe ▸ dictGet?_isSome_iff.mp hxs)
      exact hno ⟨e, he, by omega⟩
    rw [hlk, ffAcc_nohit kv _ lp hK]

/-- `_build_timeline` on non-empty series with distinct per-series
timestamps: the sorted timestamp union, and each side forward-filled from
the first point of the corresponding series. -/
theorem build_timeline_nonempty_eq (r0 : CarbonPoint) (c' : List CarbonPoint)
    (q0 : PricePoint) (p' : List PricePoint)
    (hcn : (((r0 :: c').map (fun q => q.timestamp)) : List Int).Nodup)
    (hpn : (((q0 :: p').map (fun q => q.timestamp)) : List Int).Nodup) :
    build_timeline (r0 :: c') (q0 :: p') =
      some (sortedDedup ((r0 :: c').map (fun q => q.timestamp) ++
              (q0 :: p').map (fun q => q.timestamp)),
        fillOne ((q0 :: p').map
            (fun q => (q.timestamp, q.system_buy_price_gbp_per_mwh / 1000)))
          (q0.system_buy_price_gbp_per_mwh / 1000)
          (sortedDedup ((r0 :: c').map (fun q => q.timestamp) ++
            (q0 :: p').map (fun q => q.timestamp))),
        fillOne ((r0 :: c').map (fun q => (q.timestamp, q.forecast_g_per_kwh)))
          r0.forecast_g_per_kwh
          (sortedDedup ((r0 :: c').map (fun q => q.timestamp) ++
            (q0 :: p').map (fun q => q.timestamp)))) := by
  have hne : sortedDedup ((r0 :: c').map (fun q => q.timestamp) ++
      (q0 :: p').map (fun q => q.timestamp)) ≠ [] := by
    intro h
    have hmem : r0.timestamp ∈ sortedDedup ((r0 :: c').map (fun q => q.timestamp) ++
        (q0 :: p').map (fun q => q.timestamp)) := mem_sortedDedup.mpr (by simp)
    rw [h] at hmem
    cases hmem
  have hfalse : (sortedDedup ((r0 :: c').map (fun q => q.timestamp) ++
      (q0 :: p').map (fun q => q.timestamp))).isEmpty = false := by
    cases hD : sortedDedup ((r0 :: c').map (fun q => q.timestamp) ++
        (q0 :: p').map (fun q => q.timestamp)) with
    | nil => exact absurd hD hne
    | cons a r => rfl
  have hdP : dictOf ((q0 :: p').map
      (fun q => (q.timestamp, q.system_buy_price_gbp_per_mwh / 1000))) =
      (q0 :: p').map (fun q => (q.timestamp, q.system_buy_price_gbp_per_mwh / 1000)) := by
    refine dictOf_eq_self ?_
    simpa [List.map_map, Function.comp] using hpn
  have hdC : dictOf ((r0 :: c').map (fun q => (q.timestamp, q.forecast_g_per_kwh))) =
      (r0 :: c').map (fun q => (q.timestamp, q.forecast_g_per_kwh)) := by
    refine dictOf_eq_self ?_
    simpa [List.map_map, Function.comp] using hcn
  have h1 : dictFirstVal? ((q0 :: p').map
      (fun q => (q.timestamp, q.system_buy_price_gbp_per_mwh / 1000))) =
      some (q0.system_buy_price_gbp_per_mwh / 1000) := rfl
  have h2 : dictFirstVal? ((r0 :: c').map (fun q => (q.timestamp, q.forecast_g_per_kwh))) =
      some r0.forecast_g_per_kwh := rfl
  simp only [build_timeline, hfalse, Bool.false_eq_true, if_false]
  rw [hdP, hdC, h1, h2]
  dsimp only
  rw [fillMaps_eq_fillOne]

/-- C8: on non-empty carbon and price series (with distinct timestamps
within each series), `_build_timeline` returns normally; every timeline
timestamp has a defined price and a defined carbon lookup; and a timestamp
present only in one series is filled on the other side with the value of
the latest strictly-preceding point of that other series, or with that
series' first point's value when no point precedes it. -/
theorem build_timeline_forward_fill (c : List CarbonPoint) (p : List PricePoint)
    (hc : c ≠ []) (hp : p ≠ [])
    (hcn : ((c.map (fun q => q.timestamp)) : List Int).Nodup)
    (hpn : ((p.map (fun q => q.timestamp)) : List Int).Nodup) :
    ∃ tl fp fc, build_timeline c p = some (tl, fp, fc) ∧
      (∀ ts ∈ tl, (dictGet? fp ts).isSome = true ∧ (dictGet? fc ts).isSome = true) ∧
      (∀ ts ∈ tl, ts ∉ p.map (fun q => q.timestamp) →
        ((∃ q ∈ p, q.timestamp < ts) →
          ∃ q ∈ p, q.timestamp < ts ∧
            (∀ r ∈ p, r.timestamp < ts → r.timestamp ≤ q.timestamp) ∧
            dictGet? fp ts = some (q.system_buy_price_gbp_per_mwh / 1000)) ∧
        ((¬ ∃ q ∈ p, q.timestamp < ts) →
          ∃ q, p.head? = some q ∧
            dictGet? fp ts = some (q.system_buy_price_gbp_per_mwh / 1000))) ∧
      (∀ ts ∈ tl, ts ∉ c.map (fun q => q.timestamp) →
        ((∃ q ∈ c, q.timestamp < ts) →
          ∃ q ∈ c, q.timestamp < ts ∧
            (∀ r ∈ c, r.timestamp < ts → r.timestamp ≤ q.timestamp) ∧
            dictGet? fc ts = some q.forecast_g_per_kwh) ∧
        ((¬ ∃ q ∈ c, q.timestamp < ts) →
          ∃ q, c.head? = some q ∧ dictGet? fc ts = some q.forecast_g_per_kwh)) := by
  rcases c with _ | ⟨r0, c'⟩
  · exact absurd rfl hc
  rcases p with _ | ⟨q0, p'⟩
  · exact absurd rfl hp
  refine ⟨_, _, _, build_timeline_nonempty_eq r0 c' q0 p' hcn hpn, ?_, ?_, ?_⟩
  · intro ts hts
    constructor
    · rw [dictGet?_isSome_iff, fillOne_keys]
      exact hts
    · rw [dictGet?_isSome_iff, fillOne_keys]
      exact hts
  · intro ts hts hnot
    have hcore := fillOne_forwardFill
      ((q0 :: p').map (fun q => (q.timestamp, q.system_buy_price_gbp_per_mwh / 1000)))
      (sortedDedup ((r0 :: c').map (fun q => q.timestamp) ++
        (q0 :: p').map (fun q => q.timestamp)))
      (q0.system_buy_price_gbp_per_mwh / 1000)
      (sortedDedup_pairwise _)
      (by
        intro k hk
        rw [mem_sortedDedup]
        rw [List.map_map] at hk
        refine List.mem_append.mpr (Or.inr ?_)
        simpa [Function.comp] using hk)
      ts hts
      (by
        intro hmem
        exact hnot (by simpa [List.map_map, Function.comp] using hmem))
    constructor
    · rintro ⟨q, hq, hqlt⟩
      obtain ⟨e, he, helt, hemax, heval⟩ := hcore.1
        ⟨(q.timestamp, q.system_buy_price_gbp_per_mwh / 1000),
          List.mem_map_of_mem _ hq, hqlt⟩
      rcases List.mem_map.mp he with ⟨q2, hq2, hq2e⟩
      refine ⟨q2, hq2, ?_, ?_, ?_⟩
      · rw [← hq2e] at helt
        exact helt
      · intro r hr hrlt
        have := hemax (r.timestamp, r.system_buy_price_gbp_per_mwh / 1000)
          (List.mem_map_of_mem _ hr) hrlt
        rw [← hq2e] at this
        exact this
      · rw [← hq2e] at heval
        exact heval
    · intro hno
      refine ⟨q0, rfl, ?_⟩
      refine hcore.2 ?_
      rintro ⟨e, he, helt⟩
      rcases List.mem_map.mp he with ⟨q2, hq2, hq2e⟩
      exact hno ⟨q2, hq2, by rw [← hq2e] at helt; exact helt⟩
  · intro ts hts hnot
    have hcore := fillOne_forwardFill
      ((r0 :: c').map (fun q => (q.timestamp, q.forecast_g_per_kwh)))
      (sortedDedup ((r0 :: c').map (fun q => q.timestamp) ++
        (q0 :: p').map (fun q => q.timestamp)))
      r0.forecast_g_per_kwh
      (sortedDedup_pairwise _)
      (by
        intro k hk
        rw [mem_sortedDedup]
        rw [List.map_map] at hk
        refine List.mem_append.mpr (Or.inl ?_)
        simpa [Function.comp] using hk)
      ts hts
      (by
        intro hmem
        exact hnot (by simpa [List.map_map, Function.comp] using hmem))
    constructor
    · rintro ⟨q, hq, hqlt⟩
      obtain ⟨e, he, helt, hemax, heval⟩ := hcore.1
        ⟨(q.timestamp, q.forecast_g_per_kwh), List.mem_map_of_mem _ hq, hqlt⟩
      rcases List.mem_map.mp he with ⟨q2, hq2, hq2e⟩
      refine ⟨q2, hq2, ?_, ?_, ?_⟩
      · rw [← hq2e] at helt
        exact helt
      · intro r hr hrlt
        have := hemax (r.timestamp, r.forecast_g_per_kwh)
          (List.mem_map_of_mem _ hr) hrlt
        rw [← hq2e] at this
        exact this
      · rw [← hq2e] at heval
        exact heval
    · intro hno
      refine ⟨r0, rfl, ?_⟩
      refine hcore.2 ?_
      rintro ⟨e, he, helt⟩
      rcases List.mem_map.mp he with ⟨q2, hq2, hq2e⟩
      exact hno ⟨q2, hq2, by rw [← hq2e] at helt; exact helt⟩

/-! ### Witnesses at the concrete 30-minute-spaced scenario -/

/-- Witness for the amended C1 at the concrete witness scenario: the
covering power at the timeline slot `0` stays within the 100 kW cap. -/
theorem power_cap_spaced_witness : coveringPowerAt schedW 0 ≤ 100 := by
  have htl : timelineOf carbonW priceW = [0, 1800] := by with_unfolding_all decide
  have hsp : Spaced30 (timelineOf carbonW priceW) := by
    rw [htl]
    intro k hk
    have hk0 : k = 0 := by
      simp only [List.length_cons, List.length_nil] at hk
      omega
    subst hk0
    decide
  exact power_cap_spaced jobsW carbonW priceW 0 0 100 schedW offersW 0
    (by with_unfolding_all decide)
    (by with_unfolding_all decide)
    (by norm_num)
    hsp
    (by rw [htl]; decide)

/-- Witness for the amended C2 at the concrete witness scenario,
instantiated at the single emitted placement (which ends at `1800`). -/
theorem deferral_bound_when_positive_witness :
    ∃ j ∈ jobsW, j.job_id = "wa" ∧
      (0 < j.max_deferral_hours →
        ((1800 - j.deadline : Int) : Rat) ≤ j.max_deferral_hours * 3600) := by
  have h := deferral_bound_when_positive jobsW carbonW priceW 0 0 100 schedW offersW
    (by with_unfolding_all decide)
    ⟨"wa", 0, 1800, 60, 3, 3, true, ⟨0, "default", 1⟩⟩
    (by with_unfolding_all decide)
  exact h

/-- Witness for C6 at the concrete witness scenario. -/
theorem flex_offer_derivation_witness :
    List.Forall₂ (fun (o : FlexOffer) (s : ScheduledJob) =>
        o.offer_id = "flex-" ++ s.job_id)
      offersW (schedW.filter (fun s => s.is_flexible_offer)) ∧
    ∀ sj ∈ schedW, ∃ j ∈ jobsW, j.job_id = sj.job_id ∧
      (sj.is_flexible_offer = true ↔ 0 < j.max_deferral_hours) :=
  flex_offer_derivation jobsW carbonW priceW 0 0 100 schedW offersW
    (by with_unfolding_all decide)

/-- Witness for the amended C7 at the concrete witness scenario,
instantiated at the single emitted placement `[0, 1800)`. -/
theorem end_time_equation_spaced_witness :
    ∃ j ∈ jobsW, j.job_id = "wa" ∧
      (1800 : Int) = 0 + (j.duration_slots : Int) * SLOT_DURATION := by
  have htl : timelineOf carbonW priceW = [0, 1800] := by with_unfolding_all decide
  have hsp : Spaced30 (timelineOf carbonW priceW) := by
    rw [htl]
    intro k hk
    have hk0 : k = 0 := by
      simp only [List.length_cons, List.length_nil] at hk
      omega
    subst hk0
    decide
  have h := end_time_equation_spaced jobsW carbonW priceW 0 0 100 schedW offersW
    (by with_unfolding_all decide) hsp
    ⟨"wa", 0, 1800, 60, 3, 3, true, ⟨0, "default", 1⟩⟩
    (by with_unfolding_all decide)
  exact h

/-- Witness for C8 at a concrete pair of series: both hypotheses hold and
the timeline lookups are total. -/
theorem build_timeline_forward_fill_witness :
    carbonW8 ≠ [] ∧ priceW8 ≠ [] ∧
    ∃ tl fp fc, build_timeline carbonW8 priceW8 = some (tl, fp, fc) ∧
      ∀ ts ∈ tl, (dictGet? fp ts).isSome = true ∧ (dictGet? fc ts).isSome = true := by
  refine ⟨by decide, by decide, ?_⟩
  obtain ⟨tl, fp, fc, hbt, htot, _, _⟩ :=
    build_timeline_forward_fill carbonW8 priceW8 (by decide) (by decide)
      (by decide) (by decide)
  exact ⟨tl, fp, fc, hbt, htot⟩

end Caco

